import Mathlib

/-!
Shallow embedding of the Bitorder repository (src/main.cpp).

Bytes (`uint8_t`) are modelled as `Nat` together with the invariant `< 2^8`;
every assignment to a `uint8_t` lvalue in the source is rendered with an
explicit `% 2^8` truncation.  The C++ `~x` on a promoted 32-bit operand is
rendered as `(2^32 - 1) ^^^ x`.  A value of the fundamental type `T` is
modelled as the natural number given by its little-endian byte contents
(`reinterpret_cast<uint8_t*>(&temp)` exposes byte `k` of the value, which is
bits `8*k .. 8*k+7` of that number); `ref[0]` of a value `v` is `v % 2^8`.
A `const uint8_t*` buffer is modelled as a function from byte index to byte.
-/

namespace Bitorder

/-- Embeds `copyBit` (src/main.cpp lines 7-16): overwrite bit `destPosition`
of the byte `dest` with bit `srcPosition` of `src`. -/
def copyBit (dest : Nat) (destPosition : Nat) (src : Nat) (srcPosition : Nat) : Nat :=
  if src &&& (1 <<< srcPosition) ≠ 0 then
    (dest ||| (1 <<< destPosition)) % 2^8
  else
    (dest &&& ((2^32 - 1) ^^^ (1 <<< destPosition))) % 2^8

/-- Embeds `Bitfield<T,position,size,BitOrder::LSBAtZero>::get(uint8_t)`
(src/main.cpp lines 78-85): `ref[0] = (data >> position) & (0xFF >> (8-size))`. -/
def lsb_get (position size : Nat) (data : Nat) : Nat :=
  ((data >>> position) &&& (0xFF >>> (8 - size))) % 2^8

/-- Embeds `Bitfield<T,position,size,BitOrder::LSBAtZero>::set`
(src/main.cpp lines 93-100): clear the field with the complemented shifted
mask, then or-in the masked low byte of the value, both truncated to the
`uint8_t` target. -/
def lsb_set (position size : Nat) (data : Nat) (value : Nat) : Nat :=
  ((data &&& ((2^32 - 1) ^^^ ((0xFF >>> (8 - size)) <<< position))) % 2^8
    ||| (((value % 2^8) &&& (0xFF >>> (8 - size))) <<< position)) % 2^8

/-- State of `temp`'s byte 0 after the first `k` iterations of the loop in
`Bitfield<...,BitOrder::MSBAtZero,...>::get(uint8_t)` (src/main.cpp lines
145-155); iteration `i` has `posSrc = position + i` and
`posDes = position + size - 1 - posSrc`. -/
def msbGetAfter (position size : Nat) (data : Nat) : Nat → Nat
  | 0 => 0
  | k+1 =>
    copyBit (msbGetAfter position size data k)
      (position + size - 1 - (position + k)) data (position + k)

/-- Embeds `Bitfield<T,position,size,BitOrder::MSBAtZero>::get(uint8_t)`
(src/main.cpp lines 145-155): run the loop for all `size` iterations. -/
def msb_get (position size : Nat) (data : Nat) : Nat :=
  msbGetAfter position size data size

/-- State of `data` after the first `k` iterations of the loop in
`Bitfield<...,BitOrder::MSBAtZero,...>::set` (src/main.cpp lines 163-171);
iteration `posSrc` writes `copyBit(data, position+size-1-posSrc, ref[0], posSrc)`
where `ref[0]` is the low byte of the value. -/
def msbSetAfter (position size : Nat) (data : Nat) (value : Nat) : Nat → Nat
  | 0 => data
  | k+1 =>
    copyBit (msbSetAfter position size data value k)
      (position + size - 1 - k) (value % 2^8) k

/-- Embeds `Bitfield<T,position,size,BitOrder::MSBAtZero>::set`
(src/main.cpp lines 163-171). -/
def msb_set (position size : Nat) (data : Nat) (value : Nat) : Nat :=
  msbSetAfter position size data value size

/-- Functional update of one byte of a byte store (the effect of writing
through `ref[i]` into the bytes of `temp`). -/
def writeByte (ref : Nat → Nat) (i : Nat) (b : Nat) : Nat → Nat :=
  fun j => if j = i then b else ref j

/-- Little-endian value of the first `n` bytes of a byte store: the number a
fundamental type `T` with `sizeof(T) = n` holds when its bytes are
`ref 0, ..., ref (n-1)`. -/
def bytesVal (ref : Nat → Nat) : Nat → Nat
  | 0 => 0
  | n+1 => bytesVal ref n ||| ((ref n % 2^8) <<< (8*n))

/-- Bit `k` of a byte buffer, addressed as byte `k / 8`, bit `k % 8`
(the addressing used by both multi-byte getters in src/main.cpp). -/
def bufferBit (data : Nat → Nat) (k : Nat) : Bool :=
  (data (k/8)).testBit (k%8)

/-- Bytes of `temp` after the first `k` iterations of the loop in the
multi-byte `Bitfield<...,BitOrder::LSBAtZero,...>::get<arraySize,byteOffset>`
(src/main.cpp lines 102-118); iteration `desBit` copies buffer bit
`desBit + startBit` into bit `desBit % 8` of byte `desBit / 8` of `temp`. -/
def lsbRefAfter (startBit : Nat) (data : Nat → Nat) : Nat → (Nat → Nat)
  | 0 => fun _ => 0
  | k+1 =>
    writeByte (lsbRefAfter startBit data k) (k/8)
      (copyBit (lsbRefAfter startBit data k (k/8)) (k%8)
        (data ((k + startBit)/8)) ((k + startBit)%8))

/-- Embeds the multi-byte
`Bitfield<T,position,size,BitOrder::LSBAtZero>::get<arraySize,byteOffset>`
(src/main.cpp lines 102-118), with `tBytes = sizeof(T)`: run the per-bit
copy loop and read `temp` back as a little-endian value. -/
def lsb_get_multi (position size byteOffset tBytes : Nat) (data : Nat → Nat) : Nat :=
  bytesVal (lsbRefAfter (position + 8*byteOffset) data size) tBytes

/-- Bytes of `temp` after the first `k` iterations of the loop in the
multi-byte `Bitfield<...,BitOrder::MSBAtZero,...>::get<arraySize,byteOffset>`
(src/main.cpp lines 173-190); iteration `desBit` copies buffer bit
`endBit - desBit - 1` (with `endBit = startBit + size`) into bit `desBit % 8`
of byte `desBit / 8` of `temp`. -/
def msbRefAfter (startBit size : Nat) (data : Nat → Nat) : Nat → (Nat → Nat)
  | 0 => fun _ => 0
  | k+1 =>
    writeByte (msbRefAfter startBit size data k) (k/8)
      (copyBit (msbRefAfter startBit size data k (k/8)) (k%8)
        (data ((startBit + size - k - 1)/8)) ((startBit + size - k - 1)%8))

/-- Embeds the multi-byte
`Bitfield<T,position,size,BitOrder::MSBAtZero>::get<arraySize,byteOffset>`
(src/main.cpp lines 173-190), with `tBytes = sizeof(T)`. -/
def msb_get_multi (position size byteOffset tBytes : Nat) (data : Nat → Nat) : Nat :=
  bytesVal (msbRefAfter (position + 8*byteOffset) size data size) tBytes

/-- Mathematical `size`-bit reversal, used to state the spec's order-symmetry
property: bit `i` of the result is bit `size - 1 - i` of the input. -/
def bitRev : Nat → Nat → Nat
  | 0, _ => 0
  | n+1, v => 2 * bitRev n v + (if v.testBit n then 1 else 0)

/-- The example buffer `a1 = {0b00000010, 0b00100001, 0b10000000}` from
src/main.cpp line 213, as a byte store (0 past the end). -/
def exampleBuffer : Nat → Nat
  | 0 => 0b00000010
  | 1 => 0b00100001
  | 2 => 0b10000000
  | _ => 0

/-- A byte stays a byte under `copyBit`. -/
lemma copyBit_lt (dest p src q : Nat) : copyBit dest p src q < 2^8 := by
  unfold copyBit
  split <;> exact Nat.mod_lt _ (by norm_num)

lemma and_one_shiftLeft_ne_zero (src q : Nat) :
    (src &&& (1 <<< q) ≠ 0) ↔ src.testBit q = true := by
  rw [Nat.one_shiftLeft, Nat.and_two_pow]
  have hq : (2:Nat)^q ≠ 0 := Nat.ne_of_gt (Nat.pos_pow_of_pos q (by norm_num))
  cases h : src.testBit q <;> simp [h, hq]

/-- Bit-level effect of `copyBit` on a byte: bit `p` becomes bit `q` of the
source, all other bits are unchanged. -/
lemma testBit_copyBit (dest p src q i : Nat) (hd : dest < 2^8) (hp : p < 8) :
    (copyBit dest p src q).testBit i =
      if i = p then src.testBit q else dest.testBit i := by
  by_cases hi8 : i < 8
  · unfold copyBit
    by_cases hs : src.testBit q = true
    · rw [if_pos ((and_one_shiftLeft_ne_zero src q).mpr hs)]
      rw [Nat.testBit_mod_two_pow, Nat.testBit_or, Nat.one_shiftLeft, Nat.testBit_two_pow]
      by_cases hip : i = p
      · subst hip
        simp [hi8, hs]
      · have hpi : p ≠ i := fun h => hip h.symm
        simp [hi8, hip, hpi]
    · have hcond : ¬(src &&& (1 <<< q) ≠ 0) := by
        rw [and_one_shiftLeft_ne_zero]
        simp [hs]
      rw [Bool.not_eq_true] at hs
      rw [if_neg hcond]
      rw [Nat.testBit_mod_two_pow, Nat.testBit_and, Nat.testBit_xor,
        Nat.one_shiftLeft, Nat.testBit_two_pow, Nat.testBit_two_pow_sub_one]
      have h32 : i < 32 := by omega
      by_cases hip : i = p
      · subst hip
        simp [hi8, hs, h32]
      · have hpi : p ≠ i := fun h => hip h.symm
        simp [hi8, hip, hpi, h32]
  · have h1 : (copyBit dest p src q).testBit i = false :=
      Nat.testBit_eq_false_of_lt
        (lt_of_lt_of_le (copyBit_lt dest p src q)
          (Nat.pow_le_pow_right (by norm_num) (by omega)))
    have h2 : dest.testBit i = false :=
      Nat.testBit_eq_false_of_lt
        (lt_of_lt_of_le hd (Nat.pow_le_pow_right (by norm_num) (by omega)))
    rw [h1, if_neg (by omega), h2]

/-- The C++ field mask `0xFF >> (8-size)` is `2^size - 1` for `size ≤ 8`. -/
lemma mask_eq (size : Nat) (h : size ≤ 8) : 0xFF >>> (8 - size) = 2^size - 1 := by
  interval_cases size <;> rfl

/-- Bit-level characterization of the LSBAtZero single-byte `get`. -/
lemma testBit_lsb_get (pos size data i : Nat) (hs : size ≤ 8) :
    (lsb_get pos size data).testBit i =
      if i < size then data.testBit (pos + i) else false := by
  unfold lsb_get
  rw [mask_eq size hs, Nat.testBit_mod_two_pow, Nat.testBit_and,
    Nat.testBit_shiftRight, Nat.testBit_two_pow_sub_one]
  by_cases hi : i < size
  · rw [if_pos hi]
    simp [hi, show i < 8 by omega]
  · rw [if_neg hi]
    simp [hi]

/-- Bit-level characterization of the LSBAtZero single-byte `set`: the field
bits come from the value, the rest from the old byte. -/
lemma testBit_lsb_set (pos size data v i : Nat) (h : pos + size ≤ 8) (hd : data < 2^8) :
    (lsb_set pos size data v).testBit i =
      if pos ≤ i ∧ i < pos + size then v.testBit (i - pos) else data.testBit i := by
  unfold lsb_set
  rw [mask_eq size (by omega)]
  rw [Nat.testBit_mod_two_pow, Nat.testBit_or, Nat.testBit_mod_two_pow,
    Nat.testBit_and, Nat.testBit_xor, Nat.testBit_shiftLeft,
    Nat.testBit_shiftLeft, Nat.testBit_two_pow_sub_one, Nat.testBit_and,
    Nat.testBit_mod_two_pow, Nat.testBit_two_pow_sub_one]
  by_cases hi8 : i < 8
  · by_cases hin : pos ≤ i ∧ i < pos + size
    · rw [if_pos hin]
      simp [hi8, hin.1, show i - pos < size by omega, show i < 32 by omega,
        show i - pos < 8 by omega]
    · rw [if_neg hin]
      by_cases hip : pos ≤ i
      · have hout : ¬ (i - pos < size) := by omega
        simp [hi8, hip, hout, show i < 32 by omega]
      · simp [hi8, hip, show i < 32 by omega]
  · have hd8 : data.testBit i = false :=
      Nat.testBit_eq_false_of_lt
        (lt_of_lt_of_le hd (Nat.pow_le_pow_right (by norm_num) (by omega)))
    rw [if_neg (by omega), hd8]
    simp [hi8]

/-- The MSBAtZero `get` accumulator stays a byte. -/
lemma msbGetAfter_lt (pos size data : Nat) : ∀ k, msbGetAfter pos size data k < 2^8
  | 0 => by norm_num [msbGetAfter]
  | k+1 => by
    simp only [msbGetAfter]
    exact copyBit_lt _ _ _ _

/-- Invariant of the MSBAtZero single-byte `get` loop: after `k` iterations,
bits `size-k .. size-1` of the accumulator hold the reversed field bits and
all other bits are still zero. -/
lemma testBit_msbGetAfter (pos size data : Nat) (hs : size ≤ 8) :
    ∀ k, k ≤ size → ∀ i, (msbGetAfter pos size data k).testBit i =
      if size - k ≤ i ∧ i < size then data.testBit (pos + size - 1 - i) else false := by
  intro k
  induction k with
  | zero =>
    intro _ i
    rw [if_neg (by omega)]
    simp [msbGetAfter]
  | succ k ih =>
    intro hk1 i
    have hk : k < size := by omega
    simp only [msbGetAfter]
    rw [testBit_copyBit _ _ _ _ _ (msbGetAfter_lt pos size data k) (by omega)]
    rw [ih (by omega) i]
    by_cases hi : i = pos + size - 1 - (pos + k)
    · rw [if_pos hi, if_pos (by omega)]
      congr 1
      omega
    · rw [if_neg hi]
      by_cases hc : size - k ≤ i ∧ i < size
      · rw [if_pos hc, if_pos (by omega)]
      · rw [if_neg hc, if_neg (by omega)]

/-- Bit-level characterization of the MSBAtZero single-byte `get`: bit `i` of
the result is bit `pos + size - 1 - i` of the data byte, and all bits at
index `≥ size` are zero. -/
lemma testBit_msb_get (pos size data i : Nat) (hs : size ≤ 8) :
    (msb_get pos size data).testBit i =
      if i < size then data.testBit (pos + size - 1 - i) else false := by
  unfold msb_get
  rw [testBit_msbGetAfter pos size data hs size le_rfl i]
  by_cases hi : i < size
  · rw [if_pos ⟨by omega, hi⟩, if_pos hi]
  · rw [if_neg (by omega), if_neg hi]

/-- The MSBAtZero `set` target stays a byte. -/
lemma msbSetAfter_lt (pos size data v : Nat) (hd : data < 2^8) :
    ∀ k, msbSetAfter pos size data v k < 2^8
  | 0 => hd
  | k+1 => by
    simp only [msbSetAfter]
    exact copyBit_lt _ _ _ _

/-- Invariant of the MSBAtZero single-byte `set` loop: after `k` iterations,
bits `pos+size-k .. pos+size-1` of the byte hold the reversed value bits and
all other bits are unchanged. -/
lemma testBit_msbSetAfter (pos size data v : Nat) (h : pos + size ≤ 8) (hd : data < 2^8) :
    ∀ k, k ≤ size → ∀ i, (msbSetAfter pos size data v k).testBit i =
      if pos + size - k ≤ i ∧ i < pos + size then (v % 2^8).testBit (pos + size - 1 - i)
      else data.testBit i := by
  intro k
  induction k with
  | zero =>
    intro _ i
    rw [if_neg (by omega)]
    rfl
  | succ k ih =>
    intro hk1 i
    have hk : k < size := by omega
    simp only [msbSetAfter]
    rw [testBit_copyBit _ _ _ _ _ (msbSetAfter_lt pos size data v hd k) (by omega)]
    rw [ih (by omega) i]
    by_cases hi : i = pos + size - 1 - k
    · rw [if_pos hi, if_pos (by omega)]
      congr 1
      omega
    · rw [if_neg hi]
      by_cases hc : pos + size - k ≤ i ∧ i < pos + size
      · rw [if_pos hc, if_pos (by omega)]
      · rw [if_neg hc, if_neg (by omega)]

/-- Bit-level characterization of the MSBAtZero single-byte `set`: bit
`pos+size-1-i` of the field is overwritten with bit `i` of the value, every
bit outside the field keeps its old value. -/
lemma testBit_msb_set (pos size data v i : Nat) (h : pos + size ≤ 8) (hd : data < 2^8) :
    (msb_set pos size data v).testBit i =
      if pos ≤ i ∧ i < pos + size then v.testBit (pos + size - 1 - i)
      else data.testBit i := by
  unfold msb_set
  rw [testBit_msbSetAfter pos size data v h hd size le_rfl i]
  by_cases hi : pos ≤ i ∧ i < pos + size
  · rw [if_pos (by omega), if_pos hi, Nat.testBit_mod_two_pow]
    simp [show pos + size - 1 - i < 8 by omega]
  · rw [if_neg (by omega), if_neg hi]

/-- Bit-level characterization of the `size`-bit reversal. -/
lemma testBit_bitRev (n v : Nat) : ∀ i, (bitRev n v).testBit i =
    if i < n then v.testBit (n - 1 - i) else false := by
  induction n with
  | zero =>
    intro i
    rw [if_neg (by omega)]
    simp [bitRev]
  | succ n ih =>
    intro i
    have hb : (2 * bitRev n v + (if v.testBit n then 1 else 0)) % 2 =
        (if v.testBit n then 1 else 0) := by
      cases h : v.testBit n <;> simp [h] <;> omega
    have hdiv : (2 * bitRev n v + (if v.testBit n then 1 else 0)) / 2 = bitRev n v := by
      cases h : v.testBit n <;> simp [h] <;> omega
    cases i with
    | zero =>
      rw [if_pos (by omega)]
      simp only [bitRev]
      rw [Nat.testBit_zero, hb]
      have hn : n + 1 - 1 - 0 = n := by omega
      rw [hn]
      cases h : v.testBit n <;> simp [h]
    | succ i =>
      simp only [bitRev]
      rw [Nat.testBit_add_one, hdiv, ih i]
      by_cases hi : i < n
      · rw [if_pos hi, if_pos (by omega)]
        congr 1
        omega
      · rw [if_neg hi, if_neg (by omega)]

/-- Bit `m` of the little-endian value of `n` bytes is bit `m % 8` of byte
`m / 8`, and zero beyond the `n` bytes. -/
lemma testBit_bytesVal (ref : Nat → Nat) : ∀ n m, (bytesVal ref n).testBit m =
    if m < 8*n then (ref (m/8) % 2^8).testBit (m%8) else false := by
  intro n
  induction n with
  | zero =>
    intro m
    rw [if_neg (by omega)]
    simp [bytesVal]
  | succ n ih =>
    intro m
    simp only [bytesVal]
    rw [Nat.testBit_or, Nat.testBit_shiftLeft, ih m]
    by_cases h1 : m < 8*n
    · rw [if_pos h1, if_pos (by omega)]
      simp [show ¬ (8*n ≤ m) by omega]
    · rw [if_neg h1]
      by_cases h2 : m < 8*(n+1)
      · rw [if_pos h2]
        have hmn : m / 8 = n := by omega
        have hmm : m % 8 = m - 8*n := by omega
        rw [hmn, hmm]
        simp [show 8*n ≤ m by omega]
      · have hz : (ref n % 2^8).testBit (m - 8*n) = false := by
          rw [Nat.testBit_mod_two_pow]
          simp [show ¬ (m - 8*n < 8) by omega]
        rw [if_neg h2, hz]
        simp

/-- Every byte of `temp` stays a byte through the LSBAtZero multi-byte loop. -/
lemma lsbRefAfter_lt (startBit : Nat) (data : Nat → Nat) :
    ∀ k j, lsbRefAfter startBit data k j < 2^8 := by
  intro k
  induction k with
  | zero =>
    intro j
    norm_num [lsbRefAfter]
  | succ k ih =>
    intro j
    simp only [lsbRefAfter, writeByte]
    by_cases hj : j = k/8
    · rw [if_pos hj]
      exact copyBit_lt _ _ _ _
    · rw [if_neg hj]
      exact ih j

/-- Invariant of the LSBAtZero multi-byte loop: after `k` iterations, bit `m`
of `temp` (byte `m/8`, bit `m%8`) holds buffer bit `startBit + m` for
`m < k` and is still zero otherwise. -/
lemma bufferBit_lsbRefAfter (startBit : Nat) (data : Nat → Nat) :
    ∀ k m, ((lsbRefAfter startBit data k) (m/8)).testBit (m%8) =
      if m < k then bufferBit data (startBit + m) else false := by
  intro k
  induction k with
  | zero =>
    intro m
    rw [if_neg (by omega)]
    simp [lsbRefAfter]
  | succ k ih =>
    intro m
    simp only [lsbRefAfter, writeByte]
    by_cases hm : m/8 = k/8
    · rw [if_pos hm]
      rw [testBit_copyBit _ _ _ _ _ (lsbRefAfter_lt startBit data k (k/8)) (by omega)]
      by_cases hmm : m%8 = k%8
      · have hmk : m = k := by omega
        rw [if_pos hmm, if_pos (by omega)]
        subst hmk
        simp [bufferBit, Nat.add_comm]
      · rw [if_neg hmm, ← hm, ih m]
        by_cases hc : m < k
        · rw [if_pos hc, if_pos (by omega)]
        · rw [if_neg hc, if_neg (by omega)]
    · rw [if_neg hm, ih m]
      by_cases hc : m < k
      · rw [if_pos hc, if_pos (by omega)]
      · rw [if_neg hc, if_neg (by omega)]

/-- Bit-level characterization of the LSBAtZero multi-byte `get`: an
order-preserving copy of `size` buffer bits starting at absolute bit
`position + 8*byteOffset`. -/
lemma testBit_lsb_get_multi (pos size off tBytes : Nat) (data : Nat → Nat) (i : Nat)
    (ht : size ≤ 8 * tBytes) (hi : i < size) :
    (lsb_get_multi pos size off tBytes data).testBit i =
      bufferBit data (pos + 8*off + i) := by
  unfold lsb_get_multi
  rw [testBit_bytesVal, if_pos (by omega),
    Nat.mod_eq_of_lt (lsbRefAfter_lt _ _ _ _), bufferBit_lsbRefAfter, if_pos hi]

/-- Every byte of `temp` stays a byte through the MSBAtZero multi-byte loop. -/
lemma msbRefAfter_lt (startBit size : Nat) (data : Nat → Nat) :
    ∀ k j, msbRefAfter startBit size data k j < 2^8 := by
  intro k
  induction k with
  | zero =>
    intro j
    norm_num [msbRefAfter]
  | succ k ih =>
    intro j
    simp only [msbRefAfter, writeByte]
    by_cases hj : j = k/8
    · rw [if_pos hj]
      exact copyBit_lt _ _ _ _
    · rw [if_neg hj]
      exact ih j

/-- Invariant of the MSBAtZero multi-byte loop: after `k` iterations, bit `m`
of `temp` holds buffer bit `startBit + size - 1 - m` for `m < k` and is
still zero otherwise. -/
lemma bufferBit_msbRefAfter (startBit size : Nat) (data : Nat → Nat) :
    ∀ k m, ((msbRefAfter startBit size data k) (m/8)).testBit (m%8) =
      if m < k then bufferBit data (startBit + size - 1 - m) else false := by
  intro k
  induction k with
  | zero =>
    intro m
    rw [if_neg (by omega)]
    simp [msbRefAfter]
  | succ k ih =>
    intro m
    simp only [msbRefAfter, writeByte]
    by_cases hm : m/8 = k/8
    · rw [if_pos hm]
      rw [testBit_copyBit _ _ _ _ _ (msbRefAfter_lt startBit size data k (k/8)) (by omega)]
      by_cases hmm : m%8 = k%8
      · have hmk : m = k := by omega
        rw [if_pos hmm, if_pos (by omega)]
        subst hmk
        have hsrc : startBit + size - m - 1 = startBit + size - 1 - m := by omega
        rw [hsrc]
        rfl
      · rw [if_neg hmm, ← hm, ih m]
        by_cases hc : m < k
        · rw [if_pos hc, if_pos (by omega)]
        · rw [if_neg hc, if_neg (by omega)]
    · rw [if_neg hm, ih m]
      by_cases hc : m < k
      · rw [if_pos hc, if_pos (by omega)]
      · rw [if_neg hc, if_neg (by omega)]

/-- Bit-level characterization of the MSBAtZero multi-byte `get`: bit `i` of
the result reads absolute buffer bit `startBit + size - 1 - i`, a reversal
across the whole field width. -/
lemma testBit_msb_get_multi (pos size off tBytes : Nat) (data : Nat → Nat) (i : Nat)
    (ht : size ≤ 8 * tBytes) (hi : i < size) :
    (msb_get_multi pos size off tBytes data).testBit i =
      bufferBit data (pos + 8*off + size - 1 - i) := by
  unfold msb_get_multi
  rw [testBit_bytesVal, if_pos (by omega),
    Nat.mod_eq_of_lt (msbRefAfter_lt _ _ _ _ _), bufferBit_msbRefAfter, if_pos hi]

/-- C1: for every single-byte descriptor with `position + size ≤ 8`, either
bit order, every initial byte `b`, and every value `v < 2^size`, performing
`set(b, v)` and then `get` on the resulting byte returns exactly `v`. -/
theorem claim_C1_round_trip (pos size b v : Nat) (h : pos + size ≤ 8)
    (hb : b < 2^8) (hv : v < 2^size) :
    lsb_get pos size (lsb_set pos size b v) = v ∧
    msb_get pos size (msb_set pos size b v) = v := by
  have hs : size ≤ 8 := by omega
  constructor
  · apply Nat.eq_of_testBit_eq
    intro i
    rw [testBit_lsb_get _ _ _ _ hs]
    by_cases hi : i < size
    · rw [if_pos hi, testBit_lsb_set _ _ _ _ _ h hb, if_pos (by omega)]
      congr 1
      omega
    · rw [if_neg hi]
      exact (Nat.testBit_eq_false_of_lt
        (lt_of_lt_of_le hv (Nat.pow_le_pow_right (by norm_num) (by omega)))).symm
  · apply Nat.eq_of_testBit_eq
    intro i
    rw [testBit_msb_get _ _ _ _ hs]
    by_cases hi : i < size
    · rw [if_pos hi, testBit_msb_set _ _ _ _ _ h hb, if_pos (by omega)]
      congr 1
      omega
    · rw [if_neg hi]
      exact (Nat.testBit_eq_false_of_lt
        (lt_of_lt_of_le hv (Nat.pow_le_pow_right (by norm_num) (by omega)))).symm

/-- Witness for C1 at `pos = 2, size = 3, b = 0b10100011, v = 5`. -/
theorem claim_C1_round_trip_witness :
    lsb_get 2 3 (lsb_set 2 3 0b10100011 5) = 5 ∧
    msb_get 2 3 (msb_set 2 3 0b10100011 5) = 5 :=
  claim_C1_round_trip 2 3 0b10100011 5 (by norm_num) (by norm_num) (by norm_num)

/-- C2: for every single-byte descriptor with `position + size ≤ 8`, either
bit order, every byte `b` and every value `v`, `set` leaves every bit of the
byte outside `[position, position+size)` unchanged. -/
theorem claim_C2_frame (pos size b v i : Nat) (h : pos + size ≤ 8)
    (hb : b < 2^8) (hi : i < pos ∨ pos + size ≤ i) :
    (lsb_set pos size b v).testBit i = b.testBit i ∧
    (msb_set pos size b v).testBit i = b.testBit i := by
  constructor
  · rw [testBit_lsb_set _ _ _ _ _ h hb, if_neg (by omega)]
  · rw [testBit_msb_set _ _ _ _ _ h hb, if_neg (by omega)]

/-- Witness for C2 at `pos = 2, size = 3, b = 0b10100011, v = 7, i = 0`. -/
theorem claim_C2_frame_witness :
    (lsb_set 2 3 0b10100011 7).testBit 0 = (0b10100011 : Nat).testBit 0 ∧
    (msb_set 2 3 0b10100011 7).testBit 0 = (0b10100011 : Nat).testBit 0 :=
  claim_C2_frame 2 3 0b10100011 7 0 (by norm_num) (by norm_num) (Or.inl (by norm_num))

/-- C3: the LSBAtZero single-byte `get` is the shift-and-mask extraction and
`set` is the clear-then-or write, with `mask(size) = (1 <<< size) - 1`. -/
theorem claim_C3_lsb_formulas (pos size b v : Nat) (h : pos + size ≤ 8)
    (hs : 1 ≤ size) (hb : b < 2^8) :
    lsb_get pos size b = (b >>> pos) &&& ((1 <<< size) - 1) ∧
    lsb_set pos size b v =
      (b &&& ((2^8 - 1) ^^^ (((1 <<< size) - 1) <<< pos))) |||
        ((v &&& ((1 <<< size) - 1)) <<< pos) := by
  constructor
  · apply Nat.eq_of_testBit_eq
    intro i
    rw [testBit_lsb_get _ _ _ _ (by omega)]
    simp only [Nat.one_shiftLeft, Nat.testBit_and, Nat.testBit_shiftRight,
      Nat.testBit_two_pow_sub_one]
    by_cases hi : i < size
    · simp [hi]
    · simp [hi]
  · apply Nat.eq_of_testBit_eq
    intro i
    rw [testBit_lsb_set _ _ _ _ _ h hb]
    simp only [Nat.one_shiftLeft, Nat.testBit_or, Nat.testBit_and,
      Nat.testBit_xor, Nat.testBit_shiftLeft, Nat.testBit_two_pow_sub_one]
    by_cases hin : pos ≤ i ∧ i < pos + size
    · rw [if_pos hin]
      simp [hin.1, show i - pos < size by omega, show i < 8 by omega]
    · rw [if_neg hin]
      by_cases hi8 : i < 8
      · by_cases hip : pos ≤ i
        · simp [hi8, hip, show ¬ (i - pos < size) by omega]
        · simp [hi8, hip]
      · have hbf : b.testBit i = false :=
          Nat.testBit_eq_false_of_lt
            (lt_of_lt_of_le hb (Nat.pow_le_pow_right (by norm_num) (by omega)))
        simp [hi8, hbf, show ¬ (i - pos < size) by omega]

/-- Witness for C3 at `pos = 2, size = 3, b = 0b10100011, v = 5`. -/
theorem claim_C3_lsb_formulas_witness :
    lsb_get 2 3 0b10100011 = (0b10100011 >>> 2) &&& ((1 <<< 3) - 1) ∧
    lsb_set 2 3 0b10100011 5 =
      (0b10100011 &&& ((2^8 - 1) ^^^ (((1 <<< 3) - 1) <<< 2))) |||
        ((5 &&& ((1 <<< 3) - 1)) <<< 2) :=
  claim_C3_lsb_formulas 2 3 0b10100011 5 (by norm_num) (by norm_num) (by norm_num)

/-- C4: the MSBAtZero single-byte `get` returns a value whose bit `i` is bit
`position + size - 1 - i` of the byte for `i < size` and zero above `size`,
and `set` writes bit `i` of the value into bit `position + size - 1 - i`. -/
theorem claim_C4_msb_bits (pos size b v : Nat) (h : pos + size ≤ 8)
    (hs : 1 ≤ size) (hb : b < 2^8) :
    (∀ i, i < size → (msb_get pos size b).testBit i = b.testBit (pos + size - 1 - i)) ∧
    (∀ i, size ≤ i → (msb_get pos size b).testBit i = false) ∧
    (∀ i, i < size → (msb_set pos size b v).testBit (pos + size - 1 - i) = v.testBit i) := by
  refine ⟨?_, ?_, ?_⟩
  · intro i hi
    rw [testBit_msb_get _ _ _ _ (by omega), if_pos hi]
  · intro i hi
    rw [testBit_msb_get _ _ _ _ (by omega), if_neg (by omega)]
  · intro i hi
    rw [testBit_msb_set _ _ _ _ _ h hb, if_pos (by omega)]
    congr 1
    omega

/-- Witness for C4 at `pos = 4, size = 4, b = 0b10100011, v = 5, i = 0`. -/
theorem claim_C4_msb_bits_witness :
    (msb_get 4 4 0b10100011).testBit 0 = (0b10100011 : Nat).testBit 7 ∧
    (msb_set 4 4 0b10100011 5).testBit 7 = (5 : Nat).testBit 0 :=
  ⟨(claim_C4_msb_bits 4 4 0b10100011 5 (by norm_num) (by norm_num) (by norm_num)).1
      0 (by norm_num),
    (claim_C4_msb_bits 4 4 0b10100011 5 (by norm_num) (by norm_num) (by norm_num)).2.2
      0 (by norm_num)⟩

/-- C5 counterexample: the MSBAtZero `get` of byte `0b10100011` with
descriptor `(position=4, size=4)` is not `0b1101`. -/
theorem claim_C5_counterexample : msb_get 4 4 0b10100011 ≠ 0b1101 := by decide

/-- C5 amended: the MSBAtZero `get` of byte `0b10100011` with descriptor
`(position=4, size=4)` returns `0b0101` (the reversal of the high nibble
`1010`). -/
theorem claim_C5_amended : msb_get 4 4 0b10100011 = 0b0101 := by decide

/-- C6: the MSBAtZero single-byte extraction is the `size`-bit reversal of
the LSBAtZero extraction of the same field, and conversely. -/
theorem claim_C6_order_symmetry (pos size b : Nat) (h : pos + size ≤ 8)
    (hs : 1 ≤ size) (hb : b < 2^8) :
    msb_get pos size b = bitRev size (lsb_get pos size b) ∧
    lsb_get pos size b = bitRev size (msb_get pos size b) := by
  constructor
  · apply Nat.eq_of_testBit_eq
    intro i
    rw [testBit_msb_get _ _ _ _ (by omega), testBit_bitRev]
    by_cases hi : i < size
    · rw [if_pos hi, if_pos hi, testBit_lsb_get _ _ _ _ (by omega), if_pos (by omega)]
      congr 1
      omega
    · rw [if_neg hi, if_neg hi]
  · apply Nat.eq_of_testBit_eq
    intro i
    rw [testBit_lsb_get _ _ _ _ (by omega), testBit_bitRev]
    by_cases hi : i < size
    · rw [if_pos hi, if_pos hi, testBit_msb_get _ _ _ _ (by omega), if_pos (by omega)]
      congr 1
      omega
    · rw [if_neg hi, if_neg hi]

/-- Witness for C6 at `pos = 4, size = 4, b = 0b10100011`. -/
theorem claim_C6_order_symmetry_witness :
    msb_get 4 4 0b10100011 = bitRev 4 (lsb_get 4 4 0b10100011) ∧
    lsb_get 4 4 0b10100011 = bitRev 4 (msb_get 4 4 0b10100011) :=
  claim_C6_order_symmetry 4 4 0b10100011 (by norm_num) (by norm_num) (by norm_num)

/-- C7: in the LSBAtZero multi-byte `get` (with
`position + size + 8*byteOffset ≤ 8*arraySize` and a value type of
`tBytes` bytes with `size ≤ 8*tBytes`), bit `i` of the returned value is the
buffer bit at absolute index `position + 8*byteOffset + i`, where absolute
bit `k` addresses byte `k / 8` at bit `k % 8` — an order-preserving copy
across byte boundaries. -/
theorem claim_C7_lsb_multi (pos size off tBytes arraySize : Nat)
    (data : Nat → Nat) (i : Nat)
    (hbound : pos + size + 8*off ≤ 8*arraySize) (ht : size ≤ 8*tBytes)
    (hi : i < size) :
    (lsb_get_multi pos size off tBytes data).testBit i =
      bufferBit data (pos + 8*off + i) :=
  testBit_lsb_get_multi pos size off tBytes data i ht hi

/-- Witness for C7: the example field `(position=7, size=9, LSBAtZero)` over
the 3-byte example buffer, read into a 2-byte value; bit 1 of the result is
byte 1 bit 0 of the buffer. -/
theorem claim_C7_lsb_multi_witness :
    (lsb_get_multi 7 9 0 2 exampleBuffer).testBit 1 = bufferBit exampleBuffer 8 :=
  claim_C7_lsb_multi 7 9 0 2 3 exampleBuffer 1 (by norm_num) (by norm_num) (by norm_num)

/-- C8: in the MSBAtZero multi-byte `get`, bit `i` of the returned value is
the buffer bit at absolute index `startBit + size - 1 - i` with
`startBit = position + 8*byteOffset`: the reversal spans the whole field
width, not each byte separately. -/
theorem claim_C8_msb_multi (pos size off tBytes arraySize : Nat)
    (data : Nat → Nat) (i : Nat)
    (hbound : pos + size + 8*off ≤ 8*arraySize) (ht : size ≤ 8*tBytes)
    (hi : i < size) :
    (msb_get_multi pos size off tBytes data).testBit i =
      bufferBit data (pos + 8*off + size - 1 - i) :=
  testBit_msb_get_multi pos size off tBytes data i ht hi

/-- Witness for C8 at the example buffer, `pos = 7, size = 9, i = 2`: bit 2
of the result is buffer bit 13. -/
theorem claim_C8_msb_multi_witness :
    (msb_get_multi 7 9 0 2 exampleBuffer).testBit 2 = bufferBit exampleBuffer 13 :=
  claim_C8_msb_multi 7 9 0 2 3 exampleBuffer 2 (by norm_num) (by norm_num) (by norm_num)

/-- C9 counterexample: a full-width MSBAtZero descriptor
`(position=0, size=8)` is not an identity copy: on byte `1` its `get`
returns `128`. -/
theorem claim_C9_counterexample : msb_get 0 8 1 ≠ 1 := by decide

/-- C9 amended: a full-width descriptor `(position=0, size=8)` makes the
LSBAtZero `get` an identity copy; the MSBAtZero `get` instead returns the
8-bit reversal of the byte. -/
theorem claim_C9_amended (b : Nat) (hb : b < 2^8) :
    lsb_get 0 8 b = b ∧ msb_get 0 8 b = bitRev 8 b := by
  constructor
  · apply Nat.eq_of_testBit_eq
    intro i
    rw [testBit_lsb_get _ _ _ _ (by norm_num)]
    by_cases hi : i < 8
    · rw [if_pos hi]
      congr 1
      omega
    · rw [if_neg hi]
      exact (Nat.testBit_eq_false_of_lt
        (lt_of_lt_of_le hb (Nat.pow_le_pow_right (by norm_num) (by omega)))).symm
  · apply Nat.eq_of_testBit_eq
    intro i
    rw [testBit_msb_get _ _ _ _ (by norm_num), testBit_bitRev]

/-- Witness for the amended C9 at `b = 0b10100011`. -/
theorem claim_C9_amended_witness :
    lsb_get 0 8 0b10100011 = 0b10100011 ∧
    msb_get 0 8 0b10100011 = bitRev 8 0b10100011 :=
  claim_C9_amended 0b10100011 (by norm_num)

/-- C10: for every byte `b` and single-byte descriptor with
`position + size ≤ 8` (`size ≥ 1`), in either bit order, writing back the
value just read is a no-op: `set(b, get(b)) = b`. -/
theorem claim_C10_set_get_noop (pos size b : Nat) (h : pos + size ≤ 8)
    (hs : 1 ≤ size) (hb : b < 2^8) :
    lsb_set pos size b (lsb_get pos size b) = b ∧
    msb_set pos size b (msb_get pos size b) = b := by
  constructor
  · apply Nat.eq_of_testBit_eq
    intro i
    rw [testBit_lsb_set _ _ _ _ _ h hb]
    by_cases hin : pos ≤ i ∧ i < pos + size
    · rw [if_pos hin, testBit_lsb_get _ _ _ _ (by omega), if_pos (by omega)]
      congr 1
      omega
    · rw [if_neg hin]
  · apply Nat.eq_of_testBit_eq
    intro i
    rw [testBit_msb_set _ _ _ _ _ h hb]
    by_cases hin : pos ≤ i ∧ i < pos + size
    · rw [if_pos hin, testBit_msb_get _ _ _ _ (by omega), if_pos (by omega)]
      congr 1
      omega
    · rw [if_neg hin]

/-- Witness for C10 at `pos = 2, size = 3, b = 0b10100011`. -/
theorem claim_C10_set_get_noop_witness :
    lsb_set 2 3 0b10100011 (lsb_get 2 3 0b10100011) = 0b10100011 ∧
    msb_set 2 3 0b10100011 (msb_get 2 3 0b10100011) = 0b10100011 :=
  claim_C10_set_get_noop 2 3 0b10100011 (by norm_num) (by norm_num) (by norm_num)

end Bitorder
